import Mathlib

/-!
Verification development for the `checker` package of gofindadomain.

The first half embeds the pure text-classification core of `CheckDomain` and
`extractExpiryDate` (src/unnamed/part_000, lines 11-77).  Go's regexp calls are
translated literally: every regex used by the code is an alternation of
case-insensitive literal phrases, possibly with a `\s*` or `[:\s]+` run, so each
is modelled as a scan over all suffixes of the lowercased character list.
Case folding uses `Char.toLower` (ASCII, which matches Go for the ASCII inputs
considered here).  `cmd.Output()` is modelled by its observable outcome: an
optional captured output (`none` models a nil byte slice) together with an error
flag.

The second half embeds the concurrency scheduler `CheckDomains` (lines 79-112)
plus the channel-closing wrapper `CheckDomainsWithCallback` (lines 114-131) as a
small-step transition system over an explicit scheduler state, with Go `select`
nondeterminism modelled faithfully (in particular, a select whose send case and
`ctx.Done()` case are both ready may take either branch).
-/

set_option maxRecDepth 10000

namespace GoFindADomain

/-- Go regexp `\s` character class: tab, newline, form feed, carriage return, space. -/
def wsChar (c : Char) : Bool :=
  c == ' ' || c == '\t' || c == '\n' || c == '\r' || c == '\x0c'

/-- Character class `[:\s]` used between an expiry label and the date. -/
def sepChar (c : Char) : Bool :=
  c == ':' || wsChar c

/-- Literal prefix test on character lists. -/
def startsWith : List Char → List Char → Bool
  | [], _ => true
  | _ :: _, [] => false
  | p :: ps, c :: cs => p == c && startsWith ps cs

/-- Does predicate `p` hold of some suffix of the list (including the empty one)?
This models scanning a regex across every starting position of a string. -/
def anyTail (p : List Char → Bool) : List Char → Bool
  | [] => p []
  | c :: cs => p (c :: cs) || anyTail p cs

/-- Substring containment on character lists. -/
def containsL (pat s : List Char) : Bool := anyTail (startsWith pat) s

/-- ASCII lowercasing of a character list, modelling Go's case-insensitive `(?i)`
matching over the ASCII inputs considered here. -/
def lowerL (s : List Char) : List Char := s.map Char.toLower

/-- Case-sensitive substring containment on strings. -/
def containsStr (s pat : String) : Bool := containsL pat.data s.data

/-- Case-insensitive substring containment on strings. -/
def containsCI (s pat : String) : Bool := containsL (lowerL pat.data) (lowerL s.data)

/-- Greedy `\s*`: drop a maximal run of whitespace characters.  Because every
continuation of the patterns below starts with a non-whitespace character, the
greedy run is the only viable one, so no backtracking is lost. -/
def dropWhileWs : List Char → List Char
  | [] => []
  | c :: cs => if wsChar c then dropWhileWs cs else c :: cs

/-- Match `status:\s*word` at the head of the (lowercased) list, for the
`Status:\s*free` / `Status:\s*available` / `status:\s*active` alternatives. -/
def statusAt (word : List Char) (s : List Char) : Bool :=
  startsWith ("status:").data s && startsWith word (dropWhileWs (s.drop 7))

/-- Literal alternatives of `availablePatterns` (line 36), lowercased. -/
def availLits : List (List Char) :=
  [("no match").data, ("not found").data, ("no entries found").data,
   ("no data found").data, ("not registered").data, ("no object found").data,
   ("domain not found").data, ("is free").data, ("no information available").data,
   ("not been registered").data, ("not exist").data]

/-- One starting position of `availablePatterns`. -/
def availAt (s : List Char) : Bool :=
  availLits.any (fun p => startsWith p s) ||
    statusAt ("free").data s || statusAt ("available").data s

/-- `availablePatterns.MatchString(whoisOutput)` (line 37). -/
def availableMatch (t : String) : Bool := anyTail availAt (lowerL t.data)

/-- Literal alternatives of `registeredPattern` (line 43), lowercased. -/
def regLits : List (List Char) :=
  [("name server").data, ("nserver").data, ("nameservers").data,
   ("registrant").data, ("creation date").data, ("created:").data,
   ("domain name:").data, ("registry domain id").data]

/-- One starting position of `registeredPattern`. -/
def regAt (s : List Char) : Bool :=
  regLits.any (fun p => startsWith p s) || statusAt ("active").data s

/-- `registeredPattern.MatchString(whoisOutput)` (line 44). -/
def registeredMatch (t : String) : Bool := anyTail regAt (lowerL t.data)

/-- Shape test for `[0-9]{4}-[0-9]{2}-[0-9]{2}` filling the whole 10-character list. -/
def isDate10 : List Char → Bool
  | [a, b, c, d, e, f, g, h, i, j] =>
      a.isDigit && b.isDigit && c.isDigit && d.isDigit && e == '-' &&
      f.isDigit && g.isDigit && h == '-' && i.isDigit && j.isDigit
  | _ => false

/-- Match the date group `([0-9]{4}-[0-9]{2}-[0-9]{2})` at the head of the list.
The regex consumes exactly 10 characters with no flexibility, so this is a
shape test on the first 10 characters. -/
def dateAt (s : List Char) : Option (List Char) :=
  if isDate10 (s.take 10) then some (s.take 10) else none

/-- Label alternatives of `expiryPattern` (line 58), lowercased, in the regex's
alternation order.  At any starting position at most one of them can match
(their first points of difference are all within the shorter label), so
first-match order is equivalent to Go's leftmost-first backtracking. -/
def expiryLabels : List (List Char) :=
  [("expiry date").data, ("expiration date").data,
   ("registry expiry date").data, ("expiration time").data]

/-- Try each expiry label as a literal prefix. -/
def labelAt (s : List Char) : Option (List Char) :=
  expiryLabels.find? (fun p => startsWith p s)

/-- Greedy `[:\s]+` tail after its first mandatory character.  The following date
group starts with a digit, which is not in `[:\s]`, so the greedy run is exact. -/
def dropWhileSep : List Char → List Char
  | [] => []
  | c :: cs => if sepChar c then dropWhileSep cs else c :: cs

/-- Match `[:\s]+([0-9]{4}-[0-9]{2}-[0-9]{2})` at the head of the list, returning
the date group. -/
def sepThenDate : List Char → Option (List Char)
  | [] => none
  | c :: cs => if sepChar c then dateAt (dropWhileSep cs) else none

/-- Match the whole `expiryPattern` at one starting position, returning group 2. -/
def stage1At (s : List Char) : Option (List Char) :=
  match labelAt s with
  | some lab => sepThenDate (s.drop lab.length)
  | none => none

/-- `expiryPattern.FindStringSubmatch` (line 59): leftmost match of the pattern,
found by scanning starting positions left to right. -/
def scanStage1 : List Char → Option (List Char)
  | [] => stage1At []
  | c :: cs =>
    match stage1At (c :: cs) with
    | some d => some d
    | none => scanStage1 cs

/-- Go's `strings.Split(s, "\n")`. -/
def splitLines : List Char → List (List Char)
  | [] => [[]]
  | c :: cs =>
    if c = '\n' then [] :: splitLines cs
    else
      match splitLines cs with
      | [] => [[c]]
      | l :: ls => (c :: l) :: ls

/-- `datePattern.FindString(line)` (lines 66, 70): the leftmost
`[0-9]{4}-[0-9]{2}-[0-9]{2}`-shaped substring of the line, if any. -/
def findDate : List Char → Option (List Char)
  | [] => none
  | c :: cs =>
    match dateAt (c :: cs) with
    | some d => some d
    | none => findDate cs

/-- One iteration of the fallback loop (lines 67-74): if the lowercased line
contains `"expir"` or `"expiry"`, return the first date-shaped token on the
original line.  A found date has 10 characters, so Go's `date != ""` test is
automatically satisfied. -/
def lineExpiry (line : List Char) : Option (List Char) :=
  if containsL ("expir").data (lowerL line) || containsL ("expiry").data (lowerL line) then
    findDate line
  else none

/-- The fallback line scan of `extractExpiryDate` (lines 64-74). -/
def stage2 : List (List Char) → Option (List Char)
  | [] => none
  | l :: ls =>
    match lineExpiry l with
    | some d => some d
    | none => stage2 ls

/-- The labeled-field step (a) of expiry extraction (lines 57-62).  The Go code
runs the case-insensitive regex on the original string and returns group 2; the
group consists of digits and dashes, which `Char.toLower` fixes, so running the
scan over the lowercased text returns the identical characters. -/
def labeledExpiry (whoisOutput : String) : Option String :=
  match scanStage1 (lowerL whoisOutput.data) with
  | some d => some ⟨d⟩
  | none => none

/-- `extractExpiryDate` (lines 55-77). -/
def extractExpiryDate (whoisOutput : String) : String :=
  match labeledExpiry whoisOutput with
  | some d => d
  | none =>
    match stage2 (splitLines whoisOutput.data) with
    | some d => ⟨d⟩
    | none => ""

/-- `Result` (lines 11-17), with the `error` interface field modelled as a flag
recording whether an error is attached. -/
structure Result where
  Domain : String
  Available : Bool
  ExpiryDate : String
  Error : Bool
deriving DecidableEq, Repr

/-- The three-tier classification of `CheckDomain` (lines 35-52): availability
indicators first, then registration indicators with expiry extraction, then the
optimistic fallback.  Returns (available?, expiry). -/
def classifyOutput (whoisOutput : String) : Bool × String :=
  if availableMatch whoisOutput then (true, "")
  else if registeredMatch whoisOutput then (false, extractExpiryDate whoisOutput)
  else (true, "")

/-- `CheckDomain` (lines 20-53), with the external `exec.Command("whois", d)`
outcome passed in: `output` is the captured stdout (`none` for a nil slice, as
returned on spawn failure or by a silent process) and `cmdErr` records whether
`cmd.Output()` returned a non-nil error.  The code attaches the error and
returns early exactly when `err != nil && output == nil` (lines 25-31);
otherwise `string(output)` (with `string(nil) = ""`) is classified. -/
def CheckDomain (domain : String) (output : Option String) (cmdErr : Bool) : Result :=
  if cmdErr && output.isNone then
    { Domain := domain, Available := false, ExpiryDate := "", Error := true }
  else
    { Domain := domain
      Available := (classifyOutput (output.getD "")).1
      ExpiryDate := (classifyOutput (output.getD "")).2
      Error := false }

/-! ### Scheduler embedding

`CheckDomains` (lines 79-112) is modelled as a small-step transition system.
One task per admitted domain; task `j` (spawned `j`-th, holding a semaphore
slot from its spawn in the main loop until its deferred release) moves through
`preCheck` (goroutine started, before the pre-dispatch `select` on line 98),
`probing` (pre-dispatch check passed, `CheckDomain` call running), `probed`
(probe returned, at the publish `select` on lines 103-106) and `finished`
(returned; deferred `wg.Done` and semaphore release executed).  The main
goroutine moves through the loop positions; `CheckDomainsWithCallback`
(lines 114-131) allocates the result channel with capacity `N = len(domains)`,
closes it after `CheckDomains` returns, and drains it (the `recv` step).

Go `select` semantics are kept: a `select` with a ready `<-ctx.Done()` case and
a `default` case must take the ready case, so once `cancelled` holds, the
admission check (lines 85-89) forces an early return and the pre-dispatch check
(lines 98-101) forces a task to exit; but the publish `select` (lines 103-106)
chooses uniformly among its ready cases, so after cancellation a completed
result may be either published or dropped.  A send on the closed channel would
panic (`panicClosed`).  `published` is the history of successful sends. -/

/-- Phase of one spawned task goroutine. -/
inductive TState where
  | preCheck
  | probing
  | probed
  | finished
deriving DecidableEq, Repr

/-- Position of the main `CheckDomains` goroutine, including the channel-closing
epilogue of `CheckDomainsWithCallback`: `atCheck i` is the top of loop iteration
`i` (the admission check), `atAcquire i` is just before the semaphore send,
`atWait` is inside `wg.Wait()`, `returned` means `CheckDomains` has returned
(normally or via the early `return` on line 87), `closedDone` is after
`close(resultChan)`. -/
inductive MState where
  | atCheck (i : Nat)
  | atAcquire (i : Nat)
  | atWait
  | returned
  | closedDone
deriving DecidableEq, Repr

/-- Global scheduler state.  `tasks` lists the spawned tasks in spawn order, so
task `j` carries request index `j`; `buf` is the channel buffer contents,
`published` the history of successful sends into the channel, `recvd` the number
of results taken out by the consumer loop. -/
structure Sched where
  main : MState
  tasks : List TState
  buf : List Nat
  published : List Nat
  recvd : Nat
  cancelled : Bool
  closed : Bool
  panicked : Bool
deriving DecidableEq, Repr

/-- Number of tasks currently holding a semaphore slot: a slot is acquired just
before the spawn (line 92) and released by the deferred receive (line 96) when
the task finishes. -/
def liveCount (s : Sched) : Nat :=
  s.tasks.countP (fun t => t != TState.finished)

/-- Initial state of a run. -/
def initSched : Sched :=
  { main := .atCheck 0, tasks := [], buf := [], published := [], recvd := 0,
    cancelled := false, closed := false, panicked := false }

/-- One interleaving step of the scheduler, for concurrency limit `C` and
request count `N` (the channel capacity is `N`, as allocated on line 116). -/
inductive SchedStep (C N : Nat) : Sched → Sched → Prop where
  /-- The environment fires the cancellation signal. -/
  | cancel {s : Sched} :
      s.panicked = false → s.cancelled = false →
      SchedStep C N s { s with cancelled := true }
  /-- Admission check passes (line 88, `default` branch, only when not cancelled). -/
  | checkPass {s : Sched} {i : Nat} :
      s.panicked = false → s.main = .atCheck i → i < N → s.cancelled = false →
      SchedStep C N s { s with main := .atAcquire i }
  /-- Admission check observes cancellation and returns (lines 86-87), skipping
  `wg.Wait()`. -/
  | checkCancel {s : Sched} {i : Nat} :
      s.panicked = false → s.main = .atCheck i → i < N → s.cancelled = true →
      SchedStep C N s { s with main := .returned }
  /-- The range loop is exhausted; fall through to `wg.Wait()` (line 111). -/
  | loopEnd {s : Sched} :
      s.panicked = false → s.main = .atCheck N →
      SchedStep C N s { s with main := .atWait }
  /-- `wg.Add(1)`, semaphore acquire (blocks unless a slot is free) and goroutine
  spawn (lines 91-94). -/
  | acquire {s : Sched} {i : Nat} :
      s.panicked = false → s.main = .atAcquire i → liveCount s < C →
      SchedStep C N s { s with main := .atCheck (i + 1), tasks := s.tasks ++ [.preCheck] }
  /-- `wg.Wait()` returns once every spawned task has run its deferred `wg.Done`. -/
  | waitDone {s : Sched} :
      s.panicked = false → s.main = .atWait → (∀ t ∈ s.tasks, t = TState.finished) →
      SchedStep C N s { s with main := .returned }
  /-- The wrapper closes the result channel after `CheckDomains` returns (line 120). -/
  | closeChan {s : Sched} :
      s.panicked = false → s.main = .returned →
      SchedStep C N s { s with main := .closedDone, closed := true }
  /-- Pre-dispatch check: the `select` on lines 98-101 sees `ctx.Done()` ready and
  the task returns without probing. -/
  | taskExit {s : Sched} (j : Nat) (h : j < s.tasks.length) :
      s.panicked = false → s.tasks[j] = TState.preCheck → s.cancelled = true →
      SchedStep C N s { s with tasks := s.tasks.set j .finished }
  /-- Pre-dispatch check passes (`default` branch, only when not cancelled) and the
  probe `CheckDomain(d)` starts (line 102). -/
  | taskStart {s : Sched} (j : Nat) (h : j < s.tasks.length) :
      s.panicked = false → s.tasks[j] = TState.preCheck → s.cancelled = false →
      SchedStep C N s { s with tasks := s.tasks.set j .probing }
  /-- The external probe completes (it is never forcibly terminated, so this step
  needs no condition on `cancelled`). -/
  | taskComplete {s : Sched} (j : Nat) (h : j < s.tasks.length) :
      s.panicked = false → s.tasks[j] = TState.probing →
      SchedStep C N s { s with tasks := s.tasks.set j .probed }
  /-- Publish `select` (lines 103-106) takes the send case.  The send is ready
  whenever the channel is open and its buffer has room; this branch is allowed
  even when `ctx.Done()` is also ready, because Go selects uniformly among ready
  cases. -/
  | publish {s : Sched} (j : Nat) (h : j < s.tasks.length) :
      s.panicked = false → s.tasks[j] = TState.probed → s.closed = false →
      s.buf.length < N →
      SchedStep C N s
        { s with tasks := s.tasks.set j TState.finished,
                 buf := s.buf ++ [j],
                 published := s.published ++ [j] }
  /-- Publish `select` takes the `ctx.Done()` case: the completed result is dropped. -/
  | dropResult {s : Sched} (j : Nat) (h : j < s.tasks.length) :
      s.panicked = false → s.tasks[j] = TState.probed → s.cancelled = true →
      SchedStep C N s { s with tasks := s.tasks.set j .finished }
  /-- Publish `select` chooses the send case while the channel is already closed:
  sending on a closed channel panics. -/
  | panicClosed {s : Sched} (j : Nat) (h : j < s.tasks.length) :
      s.panicked = false → s.tasks[j] = TState.probed → s.closed = true →
      SchedStep C N s { s with panicked := true }
  /-- The consumer loop of `CheckDomainsWithCallback` receives one result. -/
  | recv {s : Sched} :
      s.panicked = false → s.buf ≠ [] →
      SchedStep C N s { s with buf := s.buf.tail, recvd := s.recvd + 1 }

/-- States reachable from the start of a run. -/
inductive SchedReachable (C N : Nat) : Sched → Prop where
  | init : SchedReachable C N initSched
  | step {s t : Sched} : SchedReachable C N s → SchedStep C N s t → SchedReachable C N t

/-- Remaining work of one task, for the termination measure. -/
def tMeasure : TState → Nat
  | .preCheck => 4
  | .probing => 3
  | .probed => 2
  | .finished => 0

/-- Remaining work of the main goroutine, for the termination measure. -/
def mMeasure (N : Nat) : MState → Nat
  | .atCheck i => 6 * (N - i) + 4
  | .atAcquire i => 6 * (N - i) + 3
  | .atWait => 3
  | .returned => 2
  | .closedDone => 1

/-- Termination measure: every scheduler step strictly decreases it. -/
def schedMeasure (N : Nat) (s : Sched) : Nat :=
  mMeasure N s.main + (s.tasks.map tMeasure).sum + s.buf.length +
    (if s.cancelled then 0 else 1) + (if s.panicked then 0 else 1)

/-- Consistency of the main goroutine's position with the number of spawned
tasks. -/
def MainOk (N : Nat) (m : MState) (len : Nat) : Prop :=
  match m with
  | .atCheck i => i = len ∧ i ≤ N
  | .atAcquire i => i = len ∧ i < N
  | .atWait => len = N
  | .returned => True
  | .closedDone => True

/-- Inductive invariant of the scheduler. -/
structure SchedInv (C N : Nat) (s : Sched) : Prop where
  lenLe : s.tasks.length ≤ N
  mainOk : MainOk N s.main s.tasks.length
  liveLe : liveCount s ≤ C
  pubNodup : s.published.Nodup
  pubFin : ∀ j ∈ s.published, ∃ h : j < s.tasks.length, s.tasks[j] = TState.finished
  closedIff : s.closed = true ↔ s.main = .closedDone
  endFin : s.cancelled = false → (s.main = .returned ∨ s.main = .closedDone) →
      s.tasks.length = N ∧ ∀ t ∈ s.tasks, t = TState.finished
  finPub : s.cancelled = false → ∀ (j : Nat) (h : j < s.tasks.length),
      s.tasks[j] = TState.finished → j ∈ s.published
  bufLe : s.buf.length ≤ s.published.length
  pubLeFin : s.published.length ≤ s.tasks.countP (fun t => t == TState.finished)
  noPanic : s.cancelled = false → s.panicked = false

/-! Concrete executions with `C = 1`, `N = 1`, used as witnesses and as the
counterexample trace for the pre-publish cancellation checkpoint. -/

/-- Concrete run: initial state. -/
def cs0 : Sched := initSched

/-- Concrete run: past the admission check of request 0. -/
def cs1 : Sched := { cs0 with main := .atAcquire 0 }

/-- Concrete run: slot acquired, task 0 spawned. -/
def cs2 : Sched := { cs1 with main := .atCheck 1, tasks := [.preCheck] }

/-- Concrete run: task 0 passed the pre-dispatch check, probe running. -/
def cs3 : Sched := { cs2 with tasks := [.probing] }

/-- Concrete run: cancellation fires while the probe of task 0 is in flight. -/
def cs4 : Sched := { cs3 with cancelled := true }

/-- Concrete run: the probe of task 0 completes after the cancellation signal. -/
def cs5 : Sched := { cs4 with tasks := [.probed] }

/-- Concrete run: the publish select nevertheless delivers the result. -/
def cs6 : Sched := { cs5 with tasks := [.finished], buf := [0], published := [0] }

/-- Cancel-free concrete run, continuing from `cs3`: the probe completes. -/
def ds4 : Sched := { cs3 with tasks := [.probed] }

/-- Cancel-free concrete run: the result is published. -/
def ds5 : Sched := { ds4 with tasks := [.finished], buf := [0], published := [0] }

/-- Cancel-free concrete run: the loop is exhausted. -/
def ds6 : Sched := { ds5 with main := .atWait }

/-- Cancel-free concrete run: `wg.Wait()` returns. -/
def ds7 : Sched := { ds6 with main := .returned }

/-- Cancel-free concrete run: the result channel is closed. -/
def ds8 : Sched := { ds7 with main := .closedDone, closed := true }

/-! ### Lemmas about the text scanners -/

theorem anyTail_mono (p q : List Char → Bool) (hpq : ∀ l, p l = true → q l = true) :
    ∀ l, anyTail p l = true → anyTail q l = true := by
  intro l
  induction l with
  | nil => intro h; exact hpq [] h
  | cons c cs ih =>
    intro h
    simp only [anyTail, Bool.or_eq_true] at h ⊢
    rcases h with h | h
    · exact Or.inl (hpq _ h)
    · exact Or.inr (ih h)

theorem startsWith_map (f : Char → Char) (pat : List Char) :
    ∀ s, startsWith pat s = true → startsWith (pat.map f) (s.map f) = true := by
  induction pat with
  | nil => intro s _; rfl
  | cons p ps ih =>
    intro s h
    cases s with
    | nil => simp [startsWith] at h
    | cons c cs =>
      simp only [startsWith, Bool.and_eq_true, beq_iff_eq, List.map_cons] at h ⊢
      rcases h with ⟨h1, h2⟩
      subst h1
      exact ⟨rfl, ih cs h2⟩

theorem containsL_map (f : Char → Char) (pat : List Char) :
    ∀ s, containsL pat s = true → containsL (pat.map f) (s.map f) = true := by
  intro s
  unfold containsL
  induction s with
  | nil => intro h; exact startsWith_map f pat [] h
  | cons c cs ih =>
    intro h
    simp only [anyTail, Bool.or_eq_true, List.map_cons] at h ⊢
    rcases h with h | h
    · exact Or.inl (startsWith_map f pat (c :: cs) h)
    · exact Or.inr (ih h)

theorem startsWith_append_left (p q : List Char) :
    ∀ s, startsWith (p ++ q) s = true → startsWith p s = true := by
  induction p with
  | nil => intro s _; rfl
  | cons a ps ih =>
    intro s h
    cases s with
    | nil => simp [startsWith] at h
    | cons c cs =>
      simp only [List.cons_append, startsWith, Bool.and_eq_true] at h ⊢
      exact ⟨h.1, ih cs h.2⟩

theorem containsL_append_left (p q s : List Char) (h : containsL (p ++ q) s = true) :
    containsL p s = true :=
  anyTail_mono _ _ (fun l hl => startsWith_append_left p q l hl) s h

theorem avail_of_mem_contains (t : String) (p : List Char) (hp : p ∈ availLits)
    (h : containsL p (lowerL t.data) = true) : availableMatch t = true := by
  unfold availableMatch
  refine anyTail_mono _ _ ?_ _ h
  intro l hl
  unfold availAt
  have hx : availLits.any (fun q => startsWith q l) = true :=
    List.any_eq_true.mpr ⟨p, hp, hl⟩
  simp [hx]

theorem reg_of_mem_contains (t : String) (p : List Char) (hp : p ∈ regLits)
    (h : containsL p (lowerL t.data) = true) : registeredMatch t = true := by
  unfold registeredMatch
  refine anyTail_mono _ _ ?_ _ h
  intro l hl
  unfold regAt
  have hx : regLits.any (fun q => startsWith q l) = true :=
    List.any_eq_true.mpr ⟨p, hp, hl⟩
  simp [hx]

theorem checkDomain_avail (d t : String) (e : Bool) (h : availableMatch t = true) :
    CheckDomain d (some t) e =
      { Domain := d, Available := true, ExpiryDate := "", Error := false } := by
  simp [CheckDomain, classifyOutput, h]

/-! ### Decomposition lemmas for the labeled expiry match -/

theorem startsWith_decomp (p : List Char) :
    ∀ s, startsWith p s = true → s = p ++ s.drop p.length := by
  induction p with
  | nil => intro s _; rfl
  | cons a ps ih =>
    intro s h
    cases s with
    | nil => simp [startsWith] at h
    | cons c cs =>
      simp only [startsWith, Bool.and_eq_true, beq_iff_eq] at h
      rcases h with ⟨h1, h2⟩
      subst h1
      simp only [List.cons_append, List.length_cons, List.drop_succ_cons]
      exact congrArg (a :: ·) (ih cs h2)

theorem dropWhileSep_decomp : ∀ s : List Char, ∃ pre, s = pre ++ dropWhileSep s ∧
    ∀ c ∈ pre, sepChar c = true := by
  intro s
  induction s with
  | nil => exact ⟨[], rfl, by simp⟩
  | cons c cs ih =>
    by_cases hc : sepChar c = true
    · rcases ih with ⟨pre, h1, h2⟩
      refine ⟨c :: pre, ?_, ?_⟩
      · simp only [dropWhileSep, hc, if_true, List.cons_append]
        exact congrArg (c :: ·) h1
      · intro x hx
        rcases List.mem_cons.mp hx with rfl | hx
        · exact hc
        · exact h2 x hx
    · refine ⟨[], ?_, by simp⟩
      simp [dropWhileSep, hc]

theorem dateAt_eq (s d : List Char) (h : dateAt s = some d) :
    d = s.take 10 ∧ isDate10 d = true := by
  by_cases hc : isDate10 (s.take 10) = true
  · simp only [dateAt, hc, if_true, Option.some.injEq] at h
    exact ⟨h.symm, h ▸ hc⟩
  · simp [dateAt, hc] at h

theorem sepThenDate_decomp (s d : List Char) (h : sepThenDate s = some d) :
    ∃ sep suf, s = sep ++ d ++ suf ∧ sep ≠ [] ∧ (∀ c ∈ sep, sepChar c = true) ∧
      isDate10 d = true := by
  cases s with
  | nil => simp [sepThenDate] at h
  | cons c cs =>
    by_cases hc : sepChar c = true
    · simp only [sepThenDate, hc, if_true] at h
      rcases dropWhileSep_decomp cs with ⟨pre, hpre, hsep⟩
      rcases dateAt_eq _ _ h with ⟨hd, hdate⟩
      refine ⟨c :: pre, (dropWhileSep cs).drop 10, ?_, by simp, ?_, hdate⟩
      · have hsplit : dropWhileSep cs = d ++ (dropWhileSep cs).drop 10 := by
          rw [hd]
          exact (List.take_append_drop 10 _).symm
        calc c :: cs = c :: (pre ++ dropWhileSep cs) := by rw [← hpre]
          _ = c :: (pre ++ (d ++ (dropWhileSep cs).drop 10)) := by rw [← hsplit]
          _ = (c :: pre) ++ d ++ (dropWhileSep cs).drop 10 := by
                simp [List.append_assoc]
      · intro x hx
        rcases List.mem_cons.mp hx with rfl | hx
        · exact hc
        · exact hsep x hx
    · simp [sepThenDate, hc] at h

theorem stage1At_decomp (s d : List Char) (h : stage1At s = some d) :
    ∃ lab sep suf, s = lab ++ sep ++ d ++ suf ∧ lab ∈ expiryLabels ∧ sep ≠ [] ∧
      (∀ c ∈ sep, sepChar c = true) ∧ isDate10 d = true := by
  unfold stage1At at h
  cases hl : labelAt s with
  | none => rw [hl] at h; cases h
  | some lab =>
    rw [hl] at h
    have hl' : expiryLabels.find? (fun p => startsWith p s) = some lab := hl
    have hmem : lab ∈ expiryLabels := List.mem_of_find?_eq_some hl'
    have hsw : startsWith lab s = true := by simpa using List.find?_some hl'
    have hdec := startsWith_decomp lab s hsw
    rcases sepThenDate_decomp _ _ h with ⟨sep, suf, h1, h2, h3, h4⟩
    refine ⟨lab, sep, suf, ?_, hmem, h2, h3, h4⟩
    have hfull : s = lab ++ (sep ++ d ++ suf) := by rw [← h1]; exact hdec
    simpa [List.append_assoc] using hfull

theorem scanStage1_decomp : ∀ s d : List Char, scanStage1 s = some d →
    ∃ pre lab sep suf, s = pre ++ lab ++ sep ++ d ++ suf ∧ lab ∈ expiryLabels ∧
      sep ≠ [] ∧ (∀ c ∈ sep, sepChar c = true) ∧ isDate10 d = true := by
  intro s
  induction s with
  | nil =>
    intro d h
    rcases stage1At_decomp _ _ h with ⟨lab, sep, suf, h1, h2, h3, h4, h5⟩
    exact ⟨[], lab, sep, suf, by simpa using h1, h2, h3, h4, h5⟩
  | cons c cs ih =>
    intro d h
    cases h1 : stage1At (c :: cs) with
    | some d0 =>
      have hd : some d0 = some d := by rw [← h]; simp [scanStage1, h1]
      cases hd
      rcases stage1At_decomp _ _ h1 with ⟨lab, sep, suf, ha, hb, hc2, hd2, he⟩
      exact ⟨[], lab, sep, suf, by simpa using ha, hb, hc2, hd2, he⟩
    | none =>
      have h2 : scanStage1 cs = some d := by rw [← h]; simp [scanStage1, h1]
      rcases ih d h2 with ⟨pre, lab, sep, suf, ha, hb, hc2, hd2, he⟩
      exact ⟨c :: pre, lab, sep, suf, by simp [ha], hb, hc2, hd2, he⟩

/-! ### Claims about the Response Classifier and Probe Invoker -/

/-- C3: any input matching the availability indicator set is classified Available
with empty expiry, even when registration indicators also match: rule 1 has
priority and stops evaluation. -/
theorem availability_rule_priority (d t : String) (e : Bool)
    (h : availableMatch t = true) :
    CheckDomain d (some t) e =
      { Domain := d, Available := true, ExpiryDate := "", Error := false } :=
  checkDomain_avail d t e h

/-- Witness for C3, on a text containing `"No match for domain"` and also the
registration indicator `"Name Server"`. -/
theorem availability_rule_priority_witness :
    availableMatch "No match for domain example.com\nName Server: ns1.example.com" = true ∧
    CheckDomain "example.com"
        (some "No match for domain example.com\nName Server: ns1.example.com") true =
      { Domain := "example.com", Available := true, ExpiryDate := "", Error := false } :=
  ⟨by decide, availability_rule_priority _ _ _ (by decide)⟩

/-- C6: an input matching neither indicator set is classified Available with
empty expiry (the optimistic fallback); classification is total by construction. -/
theorem fallback_available (d t : String) (e : Bool)
    (h1 : availableMatch t = false) (h2 : registeredMatch t = false) :
    CheckDomain d (some t) e =
      { Domain := d, Available := true, ExpiryDate := "", Error := false } := by
  simp [CheckDomain, classifyOutput, h1, h2]

/-- Witness for C6. -/
theorem fallback_available_witness :
    availableMatch "hello world" = false ∧ registeredMatch "hello world" = false ∧
    CheckDomain "hello.world" (some "hello world") true =
      { Domain := "hello.world", Available := true, ExpiryDate := "", Error := false } :=
  ⟨by decide, by decide, fallback_available _ _ _ (by decide) (by decide)⟩

/-- C9: every result carrying an attached error has the zero-valued defaults in
its other fields: `Available = false` and `ExpiryDate = ""`. -/
theorem probe_failure_defaults (d : String) (out : Option String) (e : Bool)
    (h : (CheckDomain d out e).Error = true) :
    (CheckDomain d out e).Available = false ∧ (CheckDomain d out e).ExpiryDate = "" := by
  by_cases hc : (e && out.isNone) = true
  · simp [CheckDomain, hc]
  · simp [CheckDomain, hc] at h

/-- Witness for C9. -/
theorem probe_failure_defaults_witness :
    (CheckDomain "x.com" none true).Error = true ∧
    (CheckDomain "x.com" none true).Available = false ∧
    (CheckDomain "x.com" none true).ExpiryDate = "" :=
  ⟨by decide, probe_failure_defaults "x.com" none true (by decide)⟩

/-- C8 counterexample: when the process produces no output but `cmd.Output()`
reports no error (a successful run with empty stdout, for which Go's
`bytes.Buffer.Bytes()` returns nil), no error is attached, so "error attached
iff no output captured" fails in the only-if direction. -/
theorem probe_error_iff_cex :
    ¬ (((CheckDomain "example.com" none false).Error = true) ↔
        ((none : Option String) = none)) := by
  decide

/-- C8 amended: an error is attached iff the invocation returned an error and no
output was captured; whenever output was produced, even alongside a nonzero
exit status, no error is attached and the output is classified. -/
theorem probe_error_characterization (d t : String) (out : Option String) (e : Bool) :
    ((CheckDomain d out e).Error = true ↔ (e = true ∧ out = none)) ∧
    (CheckDomain d (some t) e).Error = false ∧
    CheckDomain d (some t) e =
      { Domain := d, Available := (classifyOutput t).1,
        ExpiryDate := (classifyOutput t).2, Error := false } := by
  refine ⟨?_, ?_, ?_⟩
  · cases out <;> cases e <;> simp [CheckDomain]
  · simp [CheckDomain]
  · simp [CheckDomain]

/-- C10: the implemented availability indicator set also covers phrases absent
from the spec's list; any input containing one of them (case-insensitively) is
classified Available with empty expiry, even alongside registration indicators. -/
theorem extra_availability_phrases (d t : String) (e : Bool)
    (h : containsCI t "No Data Found" = true ∨ containsCI t "not registered" = true ∨
         containsCI t "No Object Found" = true ∨
         containsCI t "No information available" = true ∨
         containsCI t "not exist" = true) :
    CheckDomain d (some t) e =
      { Domain := d, Available := true, ExpiryDate := "", Error := false } := by
  have ha : availableMatch t = true := by
    rcases h with h | h | h | h | h
    · exact avail_of_mem_contains t (lowerL ("No Data Found").data) (by decide) h
    · exact avail_of_mem_contains t (lowerL ("not registered").data) (by decide) h
    · exact avail_of_mem_contains t (lowerL ("No Object Found").data) (by decide) h
    · exact avail_of_mem_contains t (lowerL ("No information available").data) (by decide) h
    · exact avail_of_mem_contains t (lowerL ("not exist").data) (by decide) h
  exact checkDomain_avail d t e ha

/-- Witness for C10, on a text that also contains `"Name Server"`. -/
theorem extra_availability_phrases_witness :
    containsCI "No Data Found. Name Server: ns1.example.com" "No Data Found" = true ∧
    CheckDomain "y.com" (some "No Data Found. Name Server: ns1.example.com") false =
      { Domain := "y.com", Available := true, ExpiryDate := "", Error := false } :=
  ⟨by decide, extra_availability_phrases _ _ _ (Or.inl (by decide))⟩

/-- Input refuting C4: it contains both required phrases and no availability
indicator, yet an earlier `Expiration Time` label wins the leftmost regex match. -/
def c4Input : String :=
  "Expiration Time 1111-11-11\nCreation Date: 2020-01-01\nRegistry Expiry Date: 2030-01-01"

/-- C4 counterexample: `c4Input` contains `"Creation Date: 2020-01-01"` and
`"Registry Expiry Date: 2030-01-01"` and matches no availability indicator, yet
it is classified with expiry `"1111-11-11"`, not `"2030-01-01"`. -/
theorem registered_expiry_cex :
    containsStr c4Input "Creation Date: 2020-01-01" = true ∧
    containsStr c4Input "Registry Expiry Date: 2030-01-01" = true ∧
    availableMatch c4Input = false ∧
    CheckDomain "x.com" (some c4Input) false =
      { Domain := "x.com", Available := false, ExpiryDate := "1111-11-11", Error := false } := by
  refine ⟨by decide, by decide, by decide, by decide⟩

/-- C4 amended: any input containing `"Creation Date: 2020-01-01"` and no
availability indicator is classified Registered; the expiry `"2030-01-01"` is
extracted when the `Registry Expiry Date` field provides the leftmost labeled
date match, as on the two-field input itself. -/
theorem registered_expiry_amended (d t : String) (e : Bool)
    (h1 : containsStr t "Creation Date: 2020-01-01" = true)
    (h2 : availableMatch t = false) :
    (CheckDomain d (some t) e).Available = false ∧
    CheckDomain d (some "Creation Date: 2020-01-01\nRegistry Expiry Date: 2030-01-01") e =
      { Domain := d, Available := false, ExpiryDate := "2030-01-01", Error := false } := by
  constructor
  · have hl : containsL (lowerL ("Creation Date: 2020-01-01").data) (lowerL t.data) = true :=
      containsL_map Char.toLower _ _ h1
    have heq : lowerL ("Creation Date: 2020-01-01").data =
        ("creation date").data ++ (": 2020-01-01").data := by decide
    rw [heq] at hl
    have hreg : registeredMatch t = true :=
      reg_of_mem_contains t _ (by decide) (containsL_append_left _ _ _ hl)
    simp [CheckDomain, classifyOutput, h2, hreg]
  · have hco : classifyOutput "Creation Date: 2020-01-01\nRegistry Expiry Date: 2030-01-01" =
        (false, "2030-01-01") := by decide
    simp [CheckDomain, hco]

/-- Witness for the amended C4, at the two-field input itself. -/
theorem registered_expiry_amended_witness :
    containsStr "Creation Date: 2020-01-01\nRegistry Expiry Date: 2030-01-01"
        "Creation Date: 2020-01-01" = true ∧
    availableMatch "Creation Date: 2020-01-01\nRegistry Expiry Date: 2030-01-01" = false ∧
    ((CheckDomain "w.com"
        (some "Creation Date: 2020-01-01\nRegistry Expiry Date: 2030-01-01") false).Available
          = false ∧
      CheckDomain "w.com"
          (some "Creation Date: 2020-01-01\nRegistry Expiry Date: 2030-01-01") false =
        { Domain := "w.com", Available := false, ExpiryDate := "2030-01-01", Error := false }) :=
  ⟨by decide, by decide, registered_expiry_amended _ _ _ (by decide) (by decide)⟩

/-- Input refuting C5: the label sits on one line, the date on the next. -/
def c5Input : String := "Expiry Date:\n2020-03-04"

/-- C5 counterexample: the labeled-field step succeeds on `c5Input` although no
single line of it contains a label followed by a date (the step run on each
line separately fails), because `[:\s]+` matches the newline. -/
theorem labeled_expiry_cex :
    labeledExpiry c5Input = some "2020-03-04" ∧
    splitLines c5Input.data = [("Expiry Date:").data, ("2020-03-04").data] ∧
    labeledExpiry "Expiry Date:" = none ∧
    labeledExpiry "2020-03-04" = none := by
  refine ⟨by decide, by decide, by decide, by decide⟩

/-- C5 amended: whenever the labeled-field step returns a date, the text
decomposes as a label synonym, a nonempty run of colon-or-whitespace characters
(which may include line breaks, so the date need not be on the label's line),
and the YYYY-MM-DD date. -/
theorem labeled_expiry_sound (t d : String) (h : labeledExpiry t = some d) :
    ∃ pre lab sep suf, lowerL t.data = pre ++ lab ++ sep ++ d.data ++ suf ∧
      lab ∈ expiryLabels ∧ sep ≠ [] ∧ (∀ c ∈ sep, sepChar c = true) ∧
      isDate10 d.data = true := by
  unfold labeledExpiry at h
  cases hs : scanStage1 (lowerL t.data) with
  | none => rw [hs] at h; cases h
  | some dl =>
    rw [hs] at h
    have hd := Option.some.inj h
    subst hd
    exact scanStage1_decomp _ _ hs

/-- Witness for the amended C5, at the line-spanning input. -/
theorem labeled_expiry_sound_witness :
    ∃ pre lab sep suf, lowerL c5Input.data =
        pre ++ lab ++ sep ++ ("2020-03-04").data ++ suf ∧
      lab ∈ expiryLabels ∧ sep ≠ [] ∧ (∀ c ∈ sep, sepChar c = true) ∧
      isDate10 ("2020-03-04").data = true :=
  labeled_expiry_sound c5Input "2020-03-04" (by decide)

/-! ### List counting helpers for the scheduler proofs -/

theorem countP_set_add {α : Type} (p : α → Bool) :
    ∀ (l : List α) (j : Nat) (h : j < l.length) (b : α),
      (l.set j b).countP p + (if p l[j] then 1 else 0) =
        l.countP p + (if p b then 1 else 0) := by
  intro l
  induction l with
  | nil => intro j h b; simp at h
  | cons a as ih =>
    intro j h b
    cases j with
    | zero =>
      simp only [List.set_cons_zero, List.getElem_cons_zero, List.countP_cons]
      omega
    | succ j =>
      simp only [List.set_cons_succ, List.getElem_cons_succ, List.countP_cons]
      have := ih j (by simpa using h) b
      omega

theorem sum_map_set_add (f : TState → Nat) :
    ∀ (l : List TState) (j : Nat) (h : j < l.length) (b : TState),
      ((l.set j b).map f).sum + f l[j] = (l.map f).sum + f b := by
  intro l
  induction l with
  | nil => intro j h b; simp at h
  | cons a as ih =>
    intro j h b
    cases j with
    | zero =>
      simp only [List.set_cons_zero, List.getElem_cons_zero, List.map_cons, List.sum_cons]
      omega
    | succ j =>
      simp only [List.set_cons_succ, List.getElem_cons_succ, List.map_cons, List.sum_cons]
      have := ih j (by simpa using h) b
      omega

theorem countP_lt_of_getElem {α : Type} (p : α → Bool) :
    ∀ (l : List α) (j : Nat) (h : j < l.length), p l[j] = false →
      l.countP p < l.length := by
  intro l
  induction l with
  | nil => intro j h _; simp at h
  | cons a as ih =>
    intro j h hj
    cases j with
    | zero =>
      simp only [List.getElem_cons_zero] at hj
      simp [List.countP_cons, hj]
      have := List.countP_le_length p (l := as)
      omega
    | succ j =>
      simp only [List.getElem_cons_succ] at hj
      have := ih j (by simpa using h) hj
      by_cases hp : p a = true <;> simp [List.countP_cons, hp] <;> omega

/-! ### The scheduler invariant is inductive -/

theorem schedInv_init {C N : Nat} : SchedInv C N initSched := by
  refine ⟨?_, ?_, ?_, ?_, ?_, ?_, ?_, ?_, ?_, ?_, ?_⟩
  · simp [initSched]
  · simp [initSched, MainOk]
  · simp [initSched, liveCount]
  · simp [initSched]
  · simp [initSched]
  · simp [initSched]
  · intro _ hor
    rcases hor with hor | hor <;> exact nomatch hor
  · intro _ j hj _
    simp [initSched] at hj
  · simp [initSched]
  · simp [initSched]
  · intro _; rfl

theorem schedInv_preserved {C N : Nat} {s u : Sched} (hs : SchedInv C N s)
    (h : SchedStep C N s u) : SchedInv C N u := by
  obtain ⟨lenLe, mainOk, liveLe, pubNodup, pubFin, closedIff, endFin, finPub, bufLe,
    pubLeFin, noPanic⟩ := hs
  have hclosed_of_main : ∀ m, s.main = m → m ≠ MState.closedDone →
      s.closed = false := by
    intro m hm hne
    cases hcl : s.closed with
    | false => rfl
    | true => exact absurd (closedIff.mp hcl) (by rw [hm]; exact hne)
  cases h with
  | cancel hp hc =>
    exact ⟨lenLe, mainOk, liveLe, pubNodup, pubFin, closedIff,
      fun hx => (nomatch hx), fun hx => (nomatch hx), bufLe, pubLeFin,
      fun hx => (nomatch hx)⟩
  | checkPass hp hm hi hc =>
    have hmo := mainOk
    rw [hm] at hmo
    simp only [MainOk] at hmo
    have hclf := hclosed_of_main _ hm (by simp)
    refine ⟨lenLe, ?_, liveLe, pubNodup, pubFin, ?_, ?_, finPub, bufLe, pubLeFin, noPanic⟩
    · exact ⟨hmo.1, hi⟩
    · simp [hclf]
    · intro _ hor
      rcases hor with hor | hor <;> exact nomatch hor
  | checkCancel hp hm hi hc =>
    have hclf := hclosed_of_main _ hm (by simp)
    refine ⟨lenLe, trivial, liveLe, pubNodup, pubFin, ?_, ?_, ?_, bufLe, pubLeFin, ?_⟩
    · simp [hclf]
    · intro hx _
      rw [hc] at hx
      exact nomatch hx
    · intro hx
      rw [hc] at hx
      exact nomatch hx
    · intro hx
      rw [hc] at hx
      exact nomatch hx
  | loopEnd hp hm =>
    have hmo := mainOk
    rw [hm] at hmo
    simp only [MainOk] at hmo
    have hclf := hclosed_of_main _ hm (by simp)
    refine ⟨lenLe, hmo.1.symm, liveLe, pubNodup, pubFin, ?_, ?_, finPub, bufLe, pubLeFin,
      noPanic⟩
    · simp [hclf]
    · intro _ hor
      rcases hor with hor | hor <;> exact nomatch hor
  | acquire hp hm hlt =>
    have hmo := mainOk
    rw [hm] at hmo
    simp only [MainOk] at hmo
    have hclf := hclosed_of_main _ hm (by simp)
    refine ⟨?_, ?_, ?_, pubNodup, ?_, ?_, ?_, ?_, bufLe, ?_, noPanic⟩
    · simp only [List.length_append, List.length_singleton]
      omega
    · simp only [MainOk, List.length_append, List.length_singleton]
      omega
    · unfold liveCount at hlt ⊢
      simp only [List.countP_append]
      have : List.countP (fun t => t != TState.finished) [TState.preCheck] = 1 := rfl
      omega
    · intro j hj
      obtain ⟨h2, hfin⟩ := pubFin j hj
      refine ⟨by simp only [List.length_append, List.length_singleton]; omega, ?_⟩
      rw [List.getElem_append_left h2]
      exact hfin
    · simp [hclf]
    · intro _ hor
      rcases hor with hor | hor <;> exact nomatch hor
    · intro hcnc j hj hfin
      simp only [List.length_append, List.length_singleton] at hj
      by_cases hlt2 : j < s.tasks.length
      · rw [List.getElem_append_left hlt2] at hfin
        exact finPub hcnc j hlt2 hfin
      · have hj2 : j = s.tasks.length := by omega
        rw [List.getElem_concat_length _ _ _ hj2] at hfin
        exact nomatch hfin
    · simp only [List.countP_append]
      have : List.countP (fun t => t == TState.finished) [TState.preCheck] = 0 := rfl
      omega
  | waitDone hp hm hall =>
    have hmo := mainOk
    rw [hm] at hmo
    simp only [MainOk] at hmo
    have hclf := hclosed_of_main _ hm (by simp)
    refine ⟨lenLe, trivial, liveLe, pubNodup, pubFin, ?_, ?_, finPub, bufLe, pubLeFin,
      noPanic⟩
    · simp [hclf]
    · intro _ _
      exact ⟨hmo, hall⟩
  | closeChan hp hm =>
    refine ⟨lenLe, trivial, liveLe, pubNodup, pubFin, by simp, ?_, finPub, bufLe, pubLeFin,
      noPanic⟩
    · intro hcnc _
      exact endFin hcnc (Or.inl hm)
  | taskExit j hj hp hget hc =>
    refine ⟨by simpa using lenLe, by simpa [List.length_set] using mainOk, ?_, pubNodup, ?_,
      closedIff, ?_, ?_, bufLe, ?_, ?_⟩
    · have hc2 := countP_set_add (fun t => t != TState.finished) s.tasks j hj TState.finished
      rw [hget] at hc2
      simp at hc2
      unfold liveCount at liveLe ⊢
      dsimp only
      omega
    · intro k hk
      obtain ⟨h2, hfin⟩ := pubFin k hk
      have hne : j ≠ k := by
        intro he
        subst he
        rw [hget] at hfin
        exact nomatch hfin
      exact ⟨by simpa using h2, by rw [List.getElem_set_ne hne]; exact hfin⟩
    · intro hx
      rw [hc] at hx
      exact nomatch hx
    · intro hx
      rw [hc] at hx
      exact nomatch hx
    · have hc2 := countP_set_add (fun t => t == TState.finished) s.tasks j hj TState.finished
      rw [hget] at hc2
      simp at hc2
      dsimp only
      omega
    · intro hx
      rw [hc] at hx
      exact nomatch hx
  | taskStart j hj hp hget hc =>
    refine ⟨by simpa using lenLe, by simpa [List.length_set] using mainOk, ?_, pubNodup, ?_,
      closedIff, ?_, ?_, bufLe, ?_, fun _ => noPanic hc⟩
    · have hc2 := countP_set_add (fun t => t != TState.finished) s.tasks j hj TState.probing
      rw [hget] at hc2
      simp at hc2
      unfold liveCount at liveLe ⊢
      dsimp only
      omega
    · intro k hk
      obtain ⟨h2, hfin⟩ := pubFin k hk
      have hne : j ≠ k := by
        intro he
        subst he
        rw [hget] at hfin
        exact nomatch hfin
      exact ⟨by simpa using h2, by rw [List.getElem_set_ne hne]; exact hfin⟩
    · intro hcnc hor
      have hfin := (endFin hcnc hor).2 _ (List.getElem_mem hj)
      rw [hget] at hfin
      exact nomatch hfin
    · intro hcnc k hk hfin
      simp only [List.length_set] at hk
      by_cases hne : j = k
      · subst hne
        rw [List.getElem_set_self] at hfin
        exact nomatch hfin
      · rw [List.getElem_set_ne hne] at hfin
        exact finPub hcnc k hk hfin
    · have hc2 := countP_set_add (fun t => t == TState.finished) s.tasks j hj TState.probing
      rw [hget] at hc2
      simp at hc2
      dsimp only
      omega
  | taskComplete j hj hp hget =>
    refine ⟨by simpa using lenLe, by simpa [List.length_set] using mainOk, ?_, pubNodup, ?_,
      closedIff, ?_, ?_, bufLe, ?_, noPanic⟩
    · have hc2 := countP_set_add (fun t => t != TState.finished) s.tasks j hj TState.probed
      rw [hget] at hc2
      simp at hc2
      unfold liveCount at liveLe ⊢
      dsimp only
      omega
    · intro k hk
      obtain ⟨h2, hfin⟩ := pubFin k hk
      have hne : j ≠ k := by
        intro he
        subst he
        rw [hget] at hfin
        exact nomatch hfin
      exact ⟨by simpa using h2, by rw [List.getElem_set_ne hne]; exact hfin⟩
    · intro hcnc hor
      have hfin := (endFin hcnc hor).2 _ (List.getElem_mem hj)
      rw [hget] at hfin
      exact nomatch hfin
    · intro hcnc k hk hfin
      simp only [List.length_set] at hk
      by_cases hne : j = k
      · subst hne
        rw [List.getElem_set_self] at hfin
        exact nomatch hfin
      · rw [List.getElem_set_ne hne] at hfin
        exact finPub hcnc k hk hfin
    · have hc2 := countP_set_add (fun t => t == TState.finished) s.tasks j hj TState.probed
      rw [hget] at hc2
      simp at hc2
      dsimp only
      omega
  | publish j hj hp hget hcl hbuf =>
    have hnotin : j ∉ s.published := by
      intro hmem
      obtain ⟨h2, hfin⟩ := pubFin j hmem
      rw [hget] at hfin
      exact nomatch hfin
    refine ⟨by simpa using lenLe, by simpa [List.length_set] using mainOk, ?_, ?_, ?_,
      closedIff, ?_, ?_, ?_, ?_, noPanic⟩
    · have hc2 := countP_set_add (fun t => t != TState.finished) s.tasks j hj TState.finished
      rw [hget] at hc2
      simp at hc2
      unfold liveCount at liveLe ⊢
      dsimp only
      omega
    · exact pubNodup.append (List.nodup_singleton j) (List.disjoint_singleton.mpr hnotin)
    · intro k hk
      rcases List.mem_append.mp hk with hk | hk
      · obtain ⟨h2, hfin⟩ := pubFin k hk
        by_cases hne : j = k
        · subst hne
          exact ⟨by simpa using h2, by rw [List.getElem_set_self]⟩
        · exact ⟨by simpa using h2, by rw [List.getElem_set_ne hne]; exact hfin⟩
      · have hk2 : k = j := by simpa using hk
        subst hk2
        exact ⟨by simpa using hj, by rw [List.getElem_set_self]⟩
    · intro hcnc hor
      have hfin := (endFin hcnc hor).2 _ (List.getElem_mem hj)
      rw [hget] at hfin
      exact nomatch hfin
    · intro hcnc k hk hfin
      simp only [List.length_set] at hk
      by_cases hne : j = k
      · subst hne
        exact List.mem_append.mpr (Or.inr (by simp))
      · rw [List.getElem_set_ne hne] at hfin
        exact List.mem_append.mpr (Or.inl (finPub hcnc k hk hfin))
    · simp only [List.length_append, List.length_singleton]
      omega
    · have hc2 := countP_set_add (fun t => t == TState.finished) s.tasks j hj TState.finished
      rw [hget] at hc2
      simp at hc2
      dsimp only
      simp only [List.length_append, List.length_singleton]
      omega
  | dropResult j hj hp hget hc =>
    refine ⟨by simpa using lenLe, by simpa [List.length_set] using mainOk, ?_, pubNodup, ?_,
      closedIff, ?_, ?_, bufLe, ?_, ?_⟩
    · have hc2 := countP_set_add (fun t => t != TState.finished) s.tasks j hj TState.finished
      rw [hget] at hc2
      simp at hc2
      unfold liveCount at liveLe ⊢
      dsimp only
      omega
    · intro k hk
      obtain ⟨h2, hfin⟩ := pubFin k hk
      have hne : j ≠ k := by
        intro he
        subst he
        rw [hget] at hfin
        exact nomatch hfin
      exact ⟨by simpa using h2, by rw [List.getElem_set_ne hne]; exact hfin⟩
    · intro hx
      rw [hc] at hx
      exact nomatch hx
    · intro hx
      rw [hc] at hx
      exact nomatch hx
    · have hc2 := countP_set_add (fun t => t == TState.finished) s.tasks j hj TState.finished
      rw [hget] at hc2
      simp at hc2
      dsimp only
      omega
    · intro hx
      rw [hc] at hx
      exact nomatch hx
  | panicClosed j hj hp hget hcl =>
    refine ⟨lenLe, mainOk, liveLe, pubNodup, pubFin, closedIff, endFin, finPub, bufLe,
      pubLeFin, ?_⟩
    · intro hcnc
      have hfin := (endFin hcnc (Or.inr (closedIff.mp hcl))).2 _ (List.getElem_mem hj)
      rw [hget] at hfin
      exact nomatch hfin
  | recv hp hb =>
    refine ⟨lenLe, mainOk, liveLe, pubNodup, pubFin, closedIff, endFin, finPub, ?_,
      pubLeFin, noPanic⟩
    · dsimp only
      simp only [List.length_tail]
      have hpos : 0 < s.buf.length := List.length_pos.mpr hb
      omega

theorem schedInv_reachable {C N : Nat} {s : Sched} (h : SchedReachable C N s) :
    SchedInv C N s := by
  induction h with
  | init => exact schedInv_init
  | step _ hs ih => exact schedInv_preserved ih hs

theorem schedMeasure_decreases {C N : Nat} {s u : Sched} (hs : SchedInv C N s)
    (h : SchedStep C N s u) : schedMeasure N u < schedMeasure N s := by
  obtain ⟨lenLe, mainOk, liveLe, pubNodup, pubFin, closedIff, endFin, finPub, bufLe,
    pubLeFin, noPanic⟩ := hs
  cases h with
  | cancel hp hc =>
    unfold schedMeasure
    dsimp only
    rw [hc]
    simp
  | checkPass hp hm hi hc =>
    unfold schedMeasure
    dsimp only
    rw [hm]
    simp only [mMeasure]
    omega
  | checkCancel hp hm hi hc =>
    unfold schedMeasure
    dsimp only
    rw [hm]
    simp only [mMeasure]
    omega
  | loopEnd hp hm =>
    unfold schedMeasure
    dsimp only
    rw [hm]
    simp only [mMeasure]
    omega
  | acquire hp hm hlt =>
    have hmo := mainOk
    rw [hm] at hmo
    simp only [MainOk] at hmo
    unfold schedMeasure
    dsimp only
    rw [hm]
    simp only [mMeasure, List.map_append, List.sum_append]
    have h4 : (List.map tMeasure [TState.preCheck]).sum = 4 := rfl
    rw [h4]
    omega
  | waitDone hp hm hall =>
    unfold schedMeasure
    dsimp only
    rw [hm]
    simp only [mMeasure]
    omega
  | closeChan hp hm =>
    unfold schedMeasure
    dsimp only
    rw [hm]
    simp only [mMeasure]
    omega
  | taskExit j hj hp hget hc =>
    have hsum := sum_map_set_add tMeasure s.tasks j hj TState.finished
    rw [hget] at hsum
    simp only [tMeasure] at hsum
    unfold schedMeasure
    dsimp only
    omega
  | taskStart j hj hp hget hc =>
    have hsum := sum_map_set_add tMeasure s.tasks j hj TState.probing
    rw [hget] at hsum
    simp only [tMeasure] at hsum
    unfold schedMeasure
    dsimp only
    omega
  | taskComplete j hj hp hget =>
    have hsum := sum_map_set_add tMeasure s.tasks j hj TState.probed
    rw [hget] at hsum
    simp only [tMeasure] at hsum
    unfold schedMeasure
    dsimp only
    omega
  | publish j hj hp hget hcl hbuf =>
    have hsum := sum_map_set_add tMeasure s.tasks j hj TState.finished
    rw [hget] at hsum
    simp only [tMeasure] at hsum
    unfold schedMeasure
    dsimp only
    simp only [List.length_append, List.length_singleton]
    omega
  | dropResult j hj hp hget hc =>
    have hsum := sum_map_set_add tMeasure s.tasks j hj TState.finished
    rw [hget] at hsum
    simp only [tMeasure] at hsum
    unfold schedMeasure
    dsimp only
    omega
  | panicClosed j hj hp hget hcl =>
    unfold schedMeasure
    dsimp only
    rw [hp]
    simp
  | recv hp hb =>
    unfold schedMeasure
    dsimp only
    simp only [List.length_tail]
    have hpos : 0 < s.buf.length := List.length_pos.mpr hb
    omega

/-! ### Claims about the Concurrency Scheduler -/

/-- C2: along every run of the scheduler, at most `C` tasks hold an
admission-gate slot (equivalently, at most `C` spawned tasks are unfinished,
bounding the number of concurrently executing probes) at any instant. -/
theorem scheduler_bounded_concurrency (C N : Nat) (s : Sched)
    (hr : SchedReachable C N s) : liveCount s ≤ C :=
  (schedInv_reachable hr).liveLe

/-- Witness for C2, at a reachable state with one task mid-probe. -/
theorem scheduler_bounded_concurrency_witness : liveCount cs3 ≤ 1 :=
  scheduler_bounded_concurrency 1 1 cs3
    (SchedReachable.step (SchedReachable.step (SchedReachable.step SchedReachable.init
      (SchedStep.checkPass rfl rfl (by decide) rfl))
      (SchedStep.acquire rfl rfl (by decide)))
      (SchedStep.taskStart 0 (by decide) rfl rfl rfl))

/-- C1: for every concurrency limit `C ≥ 1` and request count `N`, along any
cancel-free run: once the result channel is closed, the published history is a
permutation of the `N` request indices (exactly `N` results, one per request,
all delivered before closure); a cancel-free run can only come to rest with the
channel closed; and every step strictly decreases a termination measure, so
every run does come to rest. -/
theorem scheduler_delivers_all (C N : Nat) (hC : 1 ≤ C) (s : Sched)
    (hr : SchedReachable C N s) (hnc : s.cancelled = false) :
    (s.closed = true → s.published.Perm (List.range N)) ∧
    ((∀ u, SchedStep C N s u → u.cancelled = true) → s.closed = true) ∧
    (∀ u, SchedStep C N s u → schedMeasure N u < schedMeasure N s) := by
  have hinv := schedInv_reachable hr
  refine ⟨?_, ?_, fun u hu => schedMeasure_decreases hinv hu⟩
  · intro hcl
    obtain ⟨hlen, hall⟩ := hinv.endFin hnc (Or.inr (hinv.closedIff.mp hcl))
    refine (List.perm_ext_iff_of_nodup hinv.pubNodup (List.nodup_range N)).mpr ?_
    intro a
    constructor
    · intro ha
      obtain ⟨h2, _⟩ := hinv.pubFin a ha
      exact List.mem_range.mpr (hlen ▸ h2)
    · intro ha
      have ha2 : a < s.tasks.length := by rw [hlen]; exact List.mem_range.mp ha
      exact hinv.finPub hnc a ha2 (hall _ (List.getElem_mem ha2))
  · intro hstuck
    by_cases hcl : s.closed = true
    · exact hcl
    exfalso
    have hclf : s.closed = false := by
      revert hcl; cases s.closed <;> simp
    have hp : s.panicked = false := hinv.noPanic hnc
    have hcon : ∀ u, SchedStep C N s u → u.cancelled = s.cancelled → False := by
      intro u hu he
      have hcu := hstuck u hu
      rw [he, hnc] at hcu
      exact nomatch hcu
    have htask : ∀ j, ∀ hj : j < s.tasks.length, s.tasks[j] ≠ TState.finished → False := by
      intro j hj hne
      cases hx : s.tasks[j] with
      | preCheck => exact hcon _ (SchedStep.taskStart j hj hp hx hnc) rfl
      | probing => exact hcon _ (SchedStep.taskComplete j hj hp hx) rfl
      | probed =>
        have hf : s.tasks.countP (fun t => t == TState.finished) < s.tasks.length :=
          countP_lt_of_getElem _ s.tasks j hj (by simp [hx])
        have hbuf : s.buf.length < N := by
          have h1 := hinv.pubLeFin
          have h2 := hinv.bufLe
          have h3 := hinv.lenLe
          omega
        exact hcon _ (SchedStep.publish j hj hp hx hclf hbuf) rfl
      | finished => exact hne hx
    cases hm : s.main with
    | atCheck i =>
      by_cases hi : i < N
      · exact hcon _ (SchedStep.checkPass hp hm hi hnc) rfl
      · have hmo := hinv.mainOk
        rw [hm] at hmo
        simp only [MainOk] at hmo
        have hiN : i = N := by omega
        subst hiN
        exact hcon _ (SchedStep.loopEnd hp hm) rfl
    | atAcquire i =>
      by_cases hlt : liveCount s < C
      · exact hcon _ (SchedStep.acquire hp hm hlt) rfl
      · have hpos : 0 < liveCount s := by omega
        unfold liveCount at hpos
        obtain ⟨x, hxmem, hxne⟩ := List.countP_pos_iff.mp hpos
        obtain ⟨j, hj, hxj⟩ := List.getElem_of_mem hxmem
        refine htask j hj ?_
        rw [hxj]
        simpa using hxne
    | atWait =>
      by_cases hall : ∀ t ∈ s.tasks, t = TState.finished
      · exact hcon _ (SchedStep.waitDone hp hm hall) rfl
      · push_neg at hall
        obtain ⟨x, hxmem, hxne⟩ := hall
        obtain ⟨j, hj, hxj⟩ := List.getElem_of_mem hxmem
        refine htask j hj ?_
        rw [hxj]
        exact hxne
    | returned => exact hcon _ (SchedStep.closeChan hp hm) rfl
    | closedDone => exact hcl (hinv.closedIff.mpr hm)

/-- Witness for C1: a complete cancel-free run with `C = 1`, `N = 1` ends closed
with its published history a permutation of the one request index. -/
theorem scheduler_delivers_all_witness :
    ds8.closed = true ∧ ds8.published.Perm (List.range 1) := by
  have htrace : SchedReachable 1 1 ds8 :=
    SchedReachable.step (SchedReachable.step (SchedReachable.step (SchedReachable.step
      (SchedReachable.step (SchedReachable.step (SchedReachable.step (SchedReachable.step
        SchedReachable.init
        (SchedStep.checkPass rfl rfl (by decide) rfl))
        (SchedStep.acquire rfl rfl (by decide)))
        (SchedStep.taskStart 0 (by decide) rfl rfl rfl))
        (SchedStep.taskComplete 0 (by decide) rfl rfl))
        (SchedStep.publish 0 (by decide) rfl rfl rfl (by decide)))
        (SchedStep.loopEnd rfl rfl))
        (SchedStep.waitDone rfl rfl (by decide)))
        (SchedStep.closeChan rfl rfl)
  exact ⟨rfl, (scheduler_delivers_all 1 1 (by decide) ds8 htrace rfl).1 rfl⟩

/-- C7 counterexample: a reachable execution in which the cancellation signal
has already fired (`cs4.cancelled = true`) while the probe of task 0 is still
running, the probe then completes (`cs4` to `cs5`), and the pre-publish select
nevertheless delivers the result into the stream (`cs5` to `cs6`, whose
published history is `[0]`): a result whose probe completed after signaling is
delivered, because the publish `select` may take the ready send case. -/
theorem cancel_publish_cex :
    SchedReachable 1 1 cs4 ∧ cs4.cancelled = true ∧ cs4.tasks = [TState.probing] ∧
    SchedStep 1 1 cs4 cs5 ∧ cs5.tasks = [TState.probed] ∧
    SchedStep 1 1 cs5 cs6 ∧ cs5.published = [] ∧ cs6.published = [0] := by
  refine ⟨?_, rfl, rfl, ?_, rfl, ?_, rfl, rfl⟩
  · exact SchedReachable.step (SchedReachable.step (SchedReachable.step (SchedReachable.step
      SchedReachable.init
      (SchedStep.checkPass rfl rfl (by decide) rfl))
      (SchedStep.acquire rfl rfl (by decide)))
      (SchedStep.taskStart 0 (by decide) rfl rfl rfl))
      (SchedStep.cancel rfl rfl)
  · exact SchedStep.taskComplete 0 (by decide) rfl rfl
  · exact SchedStep.publish 0 (by decide) rfl rfl rfl (by decide)

/-- C7 amended: once the cancellation signal has fired, no new probe is ever
dispatched (the pre-dispatch checkpoint is mandatory), and each step publishes
at most one completed result, which the pre-publish select may either deliver
or discard; delivery of a post-cancellation result is not prevented. -/
theorem cancellation_no_new_probes (C N : Nat) (s u : Sched) (h : SchedStep C N s u)
    (hc : s.cancelled = true) :
    u.tasks.countP (fun t => t == TState.probing) ≤
      s.tasks.countP (fun t => t == TState.probing) ∧
    (u.published = s.published ∨ ∃ j, u.published = s.published ++ [j]) := by
  cases h with
  | cancel hp hcf => exact absurd hc (by simp [hcf])
  | checkPass hp hm hi hcf => exact absurd hc (by simp [hcf])
  | checkCancel hp hm hi hcf => exact ⟨le_refl _, Or.inl rfl⟩
  | loopEnd hp hm => exact ⟨le_refl _, Or.inl rfl⟩
  | acquire hp hm hlt =>
    refine ⟨?_, Or.inl rfl⟩
    dsimp only
    simp only [List.countP_append]
    have h0 : List.countP (fun t => t == TState.probing) [TState.preCheck] = 0 := rfl
    omega
  | waitDone hp hm hall => exact ⟨le_refl _, Or.inl rfl⟩
  | closeChan hp hm => exact ⟨le_refl _, Or.inl rfl⟩
  | taskExit j hj hp hget hc2 =>
    refine ⟨?_, Or.inl rfl⟩
    have hc3 := countP_set_add (fun t => t == TState.probing) s.tasks j hj TState.finished
    rw [hget] at hc3
    simp at hc3
    dsimp only
    omega
  | taskStart j hj hp hget hcf => exact absurd hc (by simp [hcf])
  | taskComplete j hj hp hget =>
    refine ⟨?_, Or.inl rfl⟩
    have hc3 := countP_set_add (fun t => t == TState.probing) s.tasks j hj TState.probed
    rw [hget] at hc3
    simp at hc3
    dsimp only
    omega
  | publish j hj hp hget hcl hbuf =>
    refine ⟨?_, Or.inr ⟨j, rfl⟩⟩
    have hc3 := countP_set_add (fun t => t == TState.probing) s.tasks j hj TState.finished
    rw [hget] at hc3
    simp at hc3
    dsimp only
    omega
  | dropResult j hj hp hget hc2 =>
    refine ⟨?_, Or.inl rfl⟩
    have hc3 := countP_set_add (fun t => t == TState.probing) s.tasks j hj TState.finished
    rw [hget] at hc3
    simp at hc3
    dsimp only
    omega
  | panicClosed j hj hp hget hcl => exact ⟨le_refl _, Or.inl rfl⟩
  | recv hp hb => exact ⟨le_refl _, Or.inl rfl⟩

/-- Witness for the amended C7, on the post-cancellation probe-completion step. -/
theorem cancellation_no_new_probes_witness :
    cs5.tasks.countP (fun t => t == TState.probing) ≤
      cs4.tasks.countP (fun t => t == TState.probing) ∧
    (cs5.published = cs4.published ∨ ∃ j, cs5.published = cs4.published ++ [j]) :=
  cancellation_no_new_probes 1 1 cs4 cs5
    (SchedStep.taskComplete 0 (by decide) rfl rfl) rfl

end GoFindADomain
